import Mathlib

/-!
Verification of the pahe repository's core against its specification.

All definitions are shallow embeddings of the Rust source:
* `plan` embeds the range-planning arithmetic of `parallel_download`
  (crates/downloader/src/lib.rs); u64 multiplication and subtraction are
  modelled with explicit reduction modulo 2^64 (release-profile wrap-around).
* the reassembly writer, the packed-payload decoder and the kwik resolver
  follow in later sections.
-/

/-- Modulus of Rust's `u64` arithmetic. -/
def U64 : Nat := 2 ^ 64

/-- `u64::div_ceil`, implemented as in Rust core: quotient plus one when the
remainder is non-zero (this never overflows, so no wrap is needed). -/
def divCeil (a b : Nat) : Nat := a / b + (if a % b = 0 then 0 else 1)

/-- Worker count used by `parallel_download`:
`connections.max(1).min(total_size as usize)`. -/
def effectiveWorkers (total_size connections : Nat) : Nat :=
  min (max connections 1) total_size

/-- Chunk size used by `parallel_download`: `total_size.div_ceil(workers)`. -/
def chunkSizeOf (total_size connections : Nat) : Nat :=
  divCeil total_size (effectiveWorkers total_size connections)

/-- The inclusive byte ranges spawned by `parallel_download`:
for each `idx` in `0..workers`, `start = idx * chunk_size` (u64 multiply),
skip when `start >= total_size`, and
`end = ((idx + 1) * chunk_size).min(total_size) - 1` (u64 multiply and
subtract, both wrapping modulo 2^64 in a release build). -/
def plan (total_size connections : Nat) : List (Nat × Nat) :=
  let workers := effectiveWorkers total_size connections
  let cs := chunkSizeOf total_size connections
  (List.range workers).filterMap (fun idx =>
    let start := idx * cs % U64
    if total_size ≤ start then none
    else some (start, (min ((idx + 1) * cs % U64) total_size + U64 - 1) % U64))

/-- The byte indices covered by one inclusive range `(start, end)`. -/
def coveredBytes (r : Nat × Nat) : List Nat :=
  (List.range (r.2 + 1 - r.1)).map (· + r.1)

/-- The half-open interval `[a, b)` as a list, ascending. -/
def seg (a b : Nat) : List Nat := (List.range (b - a)).map (· + a)

theorem coveredBytes_eq_seg (s e : Nat) : coveredBytes (s, e) = seg s (e + 1) := rfl

theorem seg_zero (b : Nat) : seg 0 b = List.range b := by
  simp [seg]

theorem seg_shift (a b c : Nat) : seg (a + c) (b + c) = (seg a b).map (· + c) := by
  simp only [seg, Nat.add_sub_add_right, List.map_map]
  apply List.map_congr_left
  intro x _
  simp
  omega

theorem le_mul_divCeil {a b : Nat} (hb : 0 < b) : a ≤ b * divCeil a b := by
  unfold divCeil
  have hdm := Nat.div_add_mod a b
  have hlt := Nat.mod_lt a hb
  by_cases hr : a % b = 0
  · rw [if_pos hr, Nat.add_zero]
    omega
  · rw [if_neg hr, Nat.mul_add, Nat.mul_one]
    omega

theorem mul_divCeil_le {a b : Nat} (hb : 0 < b) : b * divCeil a b ≤ a + b - 1 := by
  unfold divCeil
  have hdm := Nat.div_add_mod a b
  have hlt := Nat.mod_lt a hb
  by_cases hr : a % b = 0
  · rw [if_pos hr, Nat.add_zero]
    omega
  · rw [if_neg hr, Nat.mul_add, Nat.mul_one]
    omega

theorem divCeil_le_iff {a b k : Nat} (hb : 0 < b) : divCeil a b ≤ k ↔ a ≤ b * k := by
  constructor
  · intro h
    exact Nat.le_trans (le_mul_divCeil hb) (Nat.mul_le_mul_left b h)
  · intro h
    have hdm := Nat.div_add_mod a b
    have hq : a / b ≤ k := by
      have h1 : a / b ≤ b * k / b := Nat.div_le_div_right h
      rwa [Nat.mul_div_cancel_left _ hb] at h1
    unfold divCeil
    by_cases hr : a % b = 0
    · rw [if_pos hr]
      omega
    · rw [if_neg hr]
      rcases eq_or_lt_of_le hq with he | hl
      · exfalso
        rw [he] at hdm
        omega
      · omega

theorem divCeil_pos {a b : Nat} (ha : 0 < a) (hb : 0 < b) : 0 < divCeil a b := by
  unfold divCeil
  by_cases hr : a % b = 0
  · rw [if_pos hr, Nat.add_zero]
    exact Nat.div_pos (Nat.le_of_dvd ha (Nat.dvd_of_mod_eq_zero hr)) hb
  · rw [if_neg hr]
    exact Nat.succ_pos _

theorem divCeil_small {a b : Nat} (ha : 0 < a) (hab : a ≤ b) : divCeil a b = 1 := by
  unfold divCeil
  rcases Nat.lt_or_ge a b with h | h
  · rw [Nat.mod_eq_of_lt h, Nat.div_eq_of_lt h, if_neg (by omega)]
  · have hab' : a = b := by omega
    subst hab'
    rw [Nat.mod_self, Nat.div_self ha, if_pos rfl]

theorem divCeil_add_self {a b : Nat} (hb : 0 < b) :
    divCeil (b + a) b = divCeil a b + 1 := by
  have h1 : (b + a) / b = a / b + 1 := by
    rw [Nat.add_comm b a, Nat.add_div_right _ hb]
  have h2 : (b + a) % b = a % b := by
    rw [Nat.add_comm b a, Nat.add_mod_right]
  unfold divCeil
  rw [h1, h2]
  by_cases hr : a % b = 0
  · rw [if_pos hr]
  · rw [if_neg hr]

theorem flatMap_congr_mem {α β : Type} {l : List α} {f g : α → List β}
    (h : ∀ a ∈ l, f a = g a) : l.flatMap f = l.flatMap g := by
  induction l with
  | nil => rfl
  | cons x xs ih =>
    simp only [List.flatMap_cons]
    rw [h x (List.mem_cons_self x xs), ih (fun a ha => h a (List.mem_cons_of_mem x ha))]

theorem map_flatMap_eq {α β γ : Type} (l : List α) (f : α → List β) (g : β → γ) :
    (l.flatMap f).map g = l.flatMap (fun a => (f a).map g) := by
  induction l with
  | nil => rfl
  | cons x xs ih => simp only [List.flatMap_cons, List.map_append, ih]

theorem flatMap_map_eq {α β γ : Type} (l : List α) (g : α → β) (f : β → List γ) :
    (l.map g).flatMap f = l.flatMap (fun a => f (g a)) := by
  induction l with
  | nil => rfl
  | cons x xs ih => simp only [List.map_cons, List.flatMap_cons, ih]

/-- Chunks of size `cs` starting at multiples of `cs`, truncated at `ts`,
tile the interval `[0, ts)` exactly. -/
theorem segs_partition (cs : Nat) (hcs : 0 < cs) :
    ∀ ts, ((List.range (divCeil ts cs)).flatMap
      (fun i => seg (i * cs) (min ((i + 1) * cs) ts))) = List.range ts := by
  intro ts
  induction ts using Nat.strong_induction_on with
  | _ ts ih =>
    rcases Nat.eq_zero_or_pos ts with h0 | hpos
    · subst h0
      have h : divCeil 0 cs = 0 := by simp [divCeil]
      simp [h]
    · rcases le_or_lt ts cs with hle | hlt
      · -- single chunk
        rw [divCeil_small hpos hle]
        have hmin : min (1 * cs) ts = ts := by
          rw [Nat.one_mul]
          omega
        have hone : List.range 1 = [0] := rfl
        simp only [hone, List.flatMap_cons, List.flatMap_nil,
          List.append_nil, Nat.zero_mul, Nat.zero_add, hmin, seg_zero]
      · -- peel the first chunk and shift the rest by cs
        have hts : (ts - cs) + cs = ts := by omega
        have hm : divCeil ts cs = divCeil (ts - cs) cs + 1 := by
          conv_lhs => rw [← hts, Nat.add_comm]
          exact divCeil_add_self hcs
        rw [hm, List.range_succ_eq_map, List.flatMap_cons, flatMap_map_eq]
        have hfirst : seg (0 * cs) (min ((0 + 1) * cs) ts) = List.range cs := by
          have h1 : min ((0 + 1) * cs) ts = cs := by
            rw [Nat.zero_add, Nat.one_mul]
            omega
          rw [Nat.zero_mul, h1, seg_zero]
        rw [hfirst]
        have hrest : ((List.range (divCeil (ts - cs) cs)).flatMap
              (fun i => seg ((i + 1) * cs) (min ((i + 1 + 1) * cs) ts)))
            = ((List.range (divCeil (ts - cs) cs)).flatMap
                (fun i => seg (i * cs) (min ((i + 1) * cs) (ts - cs)))).map (· + cs) := by
          rw [map_flatMap_eq]
          apply flatMap_congr_mem
          intro i _
          have e1 : (i + 1) * cs = i * cs + cs := by
            rw [Nat.add_mul, Nat.one_mul]
          have e2 : min ((i + 1 + 1) * cs) ts
              = min ((i + 1) * cs) (ts - cs) + cs := by
            conv_lhs => rw [← hts]
            have h3 : (i + 1 + 1) * cs = (i + 1) * cs + cs := by
              rw [Nat.add_mul ((i : Nat) + 1) 1 cs, Nat.one_mul]
            rw [h3]
            exact min_add_add_right _ _ _
          have hsh := seg_shift (i * cs) (min ((i + 1) * cs) (ts - cs)) cs
          rw [← e1, ← e2] at hsh
          exact hsh
        rw [hrest, ih (ts - cs) (by omega)]
        conv_rhs => rw [← hts, Nat.add_comm (ts - cs) cs]
        rw [List.range_add]
        congr 1
        apply List.map_congr_left
        intro x _
        omega

theorem filterMap_if_all_none {α : Type} (g : Nat → α) (P : Nat → Prop) [DecidablePred P] :
    ∀ l : List Nat, (∀ i ∈ l, P i) →
      l.filterMap (fun i => if P i then none else some (g i)) = [] := by
  intro l
  induction l with
  | nil => intro _; rfl
  | cons x xs ih =>
    intro h
    have hx : P x := h x (List.mem_cons_self x xs)
    simp [List.filterMap_cons, hx, ih (fun a ha => h a (List.mem_cons_of_mem x ha))]

theorem filterMap_if_all_some {α : Type} (g : Nat → α) (P : Nat → Prop) [DecidablePred P] :
    ∀ l : List Nat, (∀ i ∈ l, ¬ P i) →
      l.filterMap (fun i => if P i then none else some (g i)) = l.map g := by
  intro l
  induction l with
  | nil => intro _; rfl
  | cons x xs ih =>
    intro h
    have hx : ¬ P x := h x (List.mem_cons_self x xs)
    simp [List.filterMap_cons, hx, ih (fun a ha => h a (List.mem_cons_of_mem x ha))]

theorem range_filterMap_guard {α : Type} (g : Nat → α) (P : Nat → Prop) [DecidablePred P]
    (m w : Nat) (hmw : m ≤ w) (hiff : ∀ i, P i ↔ m ≤ i) :
    (List.range w).filterMap (fun i => if P i then none else some (g i))
      = (List.range m).map g := by
  have hw : w = m + (w - m) := by omega
  rw [hw, List.range_add, List.filterMap_append]
  have h1 : (List.range m).filterMap (fun i => if P i then none else some (g i))
      = (List.range m).map g := by
    apply filterMap_if_all_some
    intro i hi
    rw [hiff]
    have := List.mem_range.mp hi
    omega
  have h2 : ((List.range (w - m)).map (fun x => m + x)).filterMap
      (fun i => if P i then none else some (g i)) = ([] : List α) := by
    apply filterMap_if_all_none
    intro i hi
    rcases List.mem_map.mp hi with ⟨j, _, rfl⟩
    rw [hiff]
    omega
  rw [h1, h2, List.append_nil]

/-- The same range plan with exact (non-wrapping) arithmetic. -/
def planIdeal (total_size connections : Nat) : List (Nat × Nat) :=
  let workers := effectiveWorkers total_size connections
  let cs := chunkSizeOf total_size connections
  (List.range workers).filterMap (fun idx =>
    if total_size ≤ idx * cs then none
    else some (idx * cs, min ((idx + 1) * cs) total_size - 1))

theorem effectiveWorkers_pos {ts conn : Nat} (h : 0 < ts) :
    0 < effectiveWorkers ts conn := by
  unfold effectiveWorkers
  omega

theorem effectiveWorkers_le {ts conn : Nat} : effectiveWorkers ts conn ≤ ts := by
  unfold effectiveWorkers
  omega

theorem chunkSizeOf_pos {ts conn : Nat} (h : 0 < ts) : 0 < chunkSizeOf ts conn :=
  divCeil_pos h (effectiveWorkers_pos h)

/-- Below `2^63` total bytes none of the u64 operations in the planner wraps,
so `plan` coincides with the exact-arithmetic plan. -/
theorem plan_eq_planIdeal {ts conn : Nat} (h1 : 0 < ts) (h2 : ts ≤ 2 ^ 63) :
    plan ts conn = planIdeal ts conn := by
  unfold plan planIdeal
  apply List.filterMap_congr
  intro idx hidx
  have hidx' : idx < effectiveWorkers ts conn := List.mem_range.mp hidx
  have hw : 0 < effectiveWorkers ts conn := effectiveWorkers_pos h1
  have hcs : 0 < chunkSizeOf ts conn := chunkSizeOf_pos h1
  have hbound : effectiveWorkers ts conn * chunkSizeOf ts conn
      ≤ ts + effectiveWorkers ts conn - 1 := mul_divCeil_le hw
  have hwle : effectiveWorkers ts conn ≤ ts := effectiveWorkers_le
  have hmul : (idx + 1) * chunkSizeOf ts conn
      ≤ effectiveWorkers ts conn * chunkSizeOf ts conn :=
    Nat.mul_le_mul_right _ (by omega)
  have hltU : (idx + 1) * chunkSizeOf ts conn < U64 := by
    unfold U64
    have : ts + effectiveWorkers ts conn - 1 < 2 ^ 64 := by omega
    omega
  have hstart : idx * chunkSizeOf ts conn < U64 := by
    have : idx * chunkSizeOf ts conn ≤ (idx + 1) * chunkSizeOf ts conn :=
      Nat.mul_le_mul_right _ (by omega)
    omega
  rw [Nat.mod_eq_of_lt hstart, Nat.mod_eq_of_lt hltU]
  by_cases hguard : ts ≤ idx * chunkSizeOf ts conn
  · rw [if_pos hguard, if_pos hguard]
  · rw [if_neg hguard, if_neg hguard]
    have hmin1 : 1 ≤ min ((idx + 1) * chunkSizeOf ts conn) ts := by
      have h4 : 1 * 1 ≤ (idx + 1) * chunkSizeOf ts conn :=
        Nat.mul_le_mul (by omega) (by omega)
      omega
    have hminU : min ((idx + 1) * chunkSizeOf ts conn) ts < U64 := by
      omega
    have heq : min ((idx + 1) * chunkSizeOf ts conn) ts + U64 - 1
        = (min ((idx + 1) * chunkSizeOf ts conn) ts - 1) + U64 := by
      omega
    rw [heq, Nat.add_mod_right, Nat.mod_eq_of_lt (by omega)]

/-- Exact-arithmetic plan tiles `[0, ts)`. -/
theorem planIdeal_partition {ts conn : Nat} (h1 : 0 < ts) :
    (planIdeal ts conn).flatMap coveredBytes = List.range ts := by
  unfold planIdeal
  have hw : 0 < effectiveWorkers ts conn := effectiveWorkers_pos h1
  have hcs : 0 < chunkSizeOf ts conn := chunkSizeOf_pos h1
  have hts_le : ts ≤ effectiveWorkers ts conn * chunkSizeOf ts conn := le_mul_divCeil hw
  have hm_le : divCeil ts (chunkSizeOf ts conn) ≤ effectiveWorkers ts conn := by
    rw [divCeil_le_iff hcs]
    rw [Nat.mul_comm]
    exact hts_le
  rw [range_filterMap_guard
    (fun idx => (idx * chunkSizeOf ts conn, min ((idx + 1) * chunkSizeOf ts conn) ts - 1))
    (fun idx => ts ≤ idx * chunkSizeOf ts conn)
    (divCeil ts (chunkSizeOf ts conn)) (effectiveWorkers ts conn) hm_le
    (fun i => by rw [divCeil_le_iff hcs, Nat.mul_comm])]
  rw [flatMap_map_eq]
  have hcong : (List.range (divCeil ts (chunkSizeOf ts conn))).flatMap
        (fun i => coveredBytes
          (i * chunkSizeOf ts conn, min ((i + 1) * chunkSizeOf ts conn) ts - 1))
      = (List.range (divCeil ts (chunkSizeOf ts conn))).flatMap
        (fun i => seg (i * chunkSizeOf ts conn)
          (min ((i + 1) * chunkSizeOf ts conn) ts)) := by
    apply flatMap_congr_mem
    intro i hi
    have hmin1 : 1 ≤ min ((i + 1) * chunkSizeOf ts conn) ts := by
      have h4 : 1 * 1 ≤ (i + 1) * chunkSizeOf ts conn :=
        Nat.mul_le_mul (by omega) (by omega)
      omega
    rw [coveredBytes_eq_seg]
    congr 1
    omega
  rw [hcong]
  exact segs_partition (chunkSizeOf ts conn) hcs ts

theorem mem_plan_of {ts conn idx : Nat} (h : idx < effectiveWorkers ts conn)
    (hguard : ¬ ts ≤ idx * chunkSizeOf ts conn % U64) :
    (idx * chunkSizeOf ts conn % U64,
      (min ((idx + 1) * chunkSizeOf ts conn % U64) ts + U64 - 1) % U64) ∈ plan ts conn := by
  unfold plan
  exact List.mem_filterMap.mpr ⟨idx, List.mem_range.mpr h, by rw [if_neg hguard]⟩

/-- Claim C1 (amended): for every `0 < total_size ≤ 2^63` and requested worker
count, the planner uses `effective_workers = clamp(requested, 1, min(requested,
total_size))`, `chunk_size = ceil(total_size / effective_workers)` (stated as the
least size whose multiples cover the input), the resulting inclusive ranges tile
`[0, total_size)` exactly in ascending contiguous order, and `plan 10 3` is
`[(0,3),(4,7),(8,9)]`.  (The `2^63` bound excludes u64 wrap-around, see the
counterexample.) -/
theorem range_planner_correct (ts conn : Nat) (h1 : 0 < ts) (h2 : ts ≤ 2 ^ 63) :
    effectiveWorkers ts conn = max 1 (min conn (min conn ts))
    ∧ (ts ≤ effectiveWorkers ts conn * chunkSizeOf ts conn
        ∧ ∀ c, ts ≤ effectiveWorkers ts conn * c → chunkSizeOf ts conn ≤ c)
    ∧ (plan ts conn).flatMap coveredBytes = List.range ts
    ∧ plan 10 3 = [(0, 3), (4, 7), (8, 9)] := by
  refine ⟨?_, ⟨le_mul_divCeil (effectiveWorkers_pos h1), ?_⟩, ?_, ?_⟩
  · unfold effectiveWorkers
    omega
  · intro c hc
    exact (divCeil_le_iff (effectiveWorkers_pos h1)).mpr hc
  · rw [plan_eq_planIdeal h1 h2]
    exact planIdeal_partition h1
  · decide

theorem range_planner_correct_witness :
    0 < 10 ∧ 10 ≤ 2 ^ 63 ∧ (plan 10 3).flatMap coveredBytes = List.range 10 :=
  ⟨by decide, by decide, (range_planner_correct 10 3 (by decide) (by decide)).2.2.1⟩

/-- Claim C1 fails as stated at `total_size = 2^64 - 1` with `2^63` requested
workers: for the last worker the u64 product `(idx + 1) * chunk_size` wraps to 0
and the following `min(..) - 1` underflows to `2^64 - 1`, so the produced ranges
cover the byte index `total_size` itself and do not partition `[0, total_size)`. -/
theorem range_planner_counterexample :
    (plan (2 ^ 64 - 1) (2 ^ 63)).flatMap coveredBytes ≠ List.range (2 ^ 64 - 1) := by
  intro h
  have hidx : (2 ^ 63 - 1 : Nat) < effectiveWorkers (2 ^ 64 - 1) (2 ^ 63) := by decide
  have hguard : ¬ (2 ^ 64 - 1 : Nat) ≤
      (2 ^ 63 - 1) * chunkSizeOf (2 ^ 64 - 1) (2 ^ 63) % U64 := by decide
  have hmem0 := mem_plan_of hidx hguard
  have hpair : ((2 ^ 63 - 1) * chunkSizeOf (2 ^ 64 - 1) (2 ^ 63) % U64,
      (min (((2 ^ 63 - 1) + 1) * chunkSizeOf (2 ^ 64 - 1) (2 ^ 63) % U64)
        (2 ^ 64 - 1) + U64 - 1) % U64)
      = ((2 ^ 64 - 2 : Nat), (2 ^ 64 - 1 : Nat)) := by decide
  rw [hpair] at hmem0
  have hmem : (2 ^ 64 - 1 : Nat) ∈ (plan (2 ^ 64 - 1) (2 ^ 63)).flatMap coveredBytes :=
    List.mem_flatMap.mpr ⟨(2 ^ 64 - 2, 2 ^ 64 - 1), hmem0, by decide⟩
  rw [h] at hmem
  exact absurd (List.mem_range.mp hmem) (by omega)

/-- Download configuration (crates/downloader `DownloadConfig`): url, output
path, and number of parallel connections. -/
structure DownloadConfig where
  url : List Char
  output : List Char
  connections : Nat

/-- `DownloadConfig::new` sets `connections: 8`. -/
def DownloadConfig.new (url output : List Char) : DownloadConfig := ⟨url, output, 8⟩

/-- Builder `connections(mut self, n)`: stores `n.max(1)` (named
`setConnections` here because the field accessor takes the Rust name). -/
def DownloadConfig.setConnections (c : DownloadConfig) (n : Nat) : DownloadConfig :=
  ⟨c.url, c.output, max n 1⟩

/-- Claim C9 fails on the code: a `DownloadConfig` constructed without
requesting a worker count has `connections = 8`, not 1. -/
theorem download_config_default_counterexample :
    (DownloadConfig.new [] []).connections ≠ 1 := by decide

/-- Claim C9 (amended): `DownloadConfig::new` defaults `connections` to 8, so a
transfer is range-parallel by default; the `connections` builder clamps any
requested count to at least 1. -/
theorem download_config_default (url output : List Char) (n : Nat) :
    (DownloadConfig.new url output).connections = 8
    ∧ ((DownloadConfig.new url output).setConnections n).connections = max n 1 :=
  ⟨rfl, rfl⟩

/-- `BTreeMap::remove(&k)` modelled on an association list: the stored value
and the map without that entry (`none` when the key is absent). -/
def removeKey (k : Nat) : List (Nat × List Nat) → Option (List Nat × List (Nat × List Nat))
  | [] => none
  | p :: rest =>
    if p.1 = k then some (p.2, rest)
    else match removeKey k rest with
      | none => none
      | some vr => some (vr.1, p :: vr.2)

theorem removeKey_length {k : Nat} :
    ∀ {l : List (Nat × List Nat)} {vr}, removeKey k l = some vr → vr.2.length < l.length := by
  intro l
  induction l with
  | nil => intro vr h; simp [removeKey] at h
  | cons p rest ih =>
    intro vr h
    rw [removeKey] at h
    by_cases hpk : p.1 = k
    · rw [if_pos hpk] at h
      cases h
      simp
    · rw [if_neg hpk] at h
      cases hrk : removeKey k rest with
      | none => rw [hrk] at h; cases h
      | some vr' =>
        rw [hrk] at h
        cases h
        have := ih hrk
        simp
        omega

theorem removeKey_none {k : Nat} :
    ∀ {l : List (Nat × List Nat)}, removeKey k l = none → ∀ v, (k, v) ∉ l := by
  intro l
  induction l with
  | nil => intro _ v hv; cases hv
  | cons p rest ih =>
    intro h v hv
    rw [removeKey] at h
    by_cases hpk : p.1 = k
    · rw [if_pos hpk] at h; cases h
    · rw [if_neg hpk] at h
      cases hrk : removeKey k rest with
      | none =>
        rcases List.mem_cons.mp hv with he | hm
        · exact hpk (by rw [← he])
        · exact ih hrk v hm
      | some vr' => rw [hrk] at h; cases h

theorem removeKey_mem {k : Nat} :
    ∀ {l : List (Nat × List Nat)} {vr}, removeKey k l = some vr → (k, vr.1) ∈ l := by
  intro l
  induction l with
  | nil => intro vr h; simp [removeKey] at h
  | cons p rest ih =>
    intro vr h
    rw [removeKey] at h
    by_cases hpk : p.1 = k
    · rw [if_pos hpk] at h
      cases h
      have hp : p = (k, p.2) := Prod.ext hpk rfl
      rw [← hp]
      exact List.mem_cons_self p rest
    · rw [if_neg hpk] at h
      cases hrk : removeKey k rest with
      | none => rw [hrk] at h; cases h
      | some vr' =>
        rw [hrk] at h
        cases h
        have h5 := ih hrk
        exact List.mem_cons_of_mem p h5

theorem removeKey_sublist {k : Nat} :
    ∀ {l : List (Nat × List Nat)} {vr}, removeKey k l = some vr → vr.2.Sublist l := by
  intro l
  induction l with
  | nil => intro vr h; simp [removeKey] at h
  | cons p rest ih =>
    intro vr h
    rw [removeKey] at h
    by_cases hpk : p.1 = k
    · rw [if_pos hpk] at h
      cases h
      exact List.sublist_cons_self p rest
    · rw [if_neg hpk] at h
      cases hrk : removeKey k rest with
      | none => rw [hrk] at h; cases h
      | some vr' =>
        rw [hrk] at h
        cases h
        exact List.Sublist.cons₂ p (ih hrk)

theorem removeKey_mem_rest {k : Nat} :
    ∀ {l : List (Nat × List Nat)} {vr}, (l.map Prod.fst).Nodup →
      removeKey k l = some vr → ∀ q, q ∈ vr.2 ↔ (q ∈ l ∧ q.1 ≠ k) := by
  intro l
  induction l with
  | nil => intro vr _ h; simp [removeKey] at h
  | cons p rest ih =>
    intro vr hnd h q
    rw [List.map_cons] at hnd
    have hnd' := List.nodup_cons.mp hnd
    rw [removeKey] at h
    by_cases hpk : p.1 = k
    · rw [if_pos hpk] at h
      cases h
      constructor
      · intro hq
        refine ⟨List.mem_cons_of_mem p hq, ?_⟩
        intro hqk
        have hft : q.1 = p.1 := by rw [hqk, hpk]
        exact hnd'.1 (List.mem_map.mpr ⟨q, hq, hft⟩)
      · intro ⟨hq, hqk⟩
        rcases List.mem_cons.mp hq with he | hm
        · exact absurd (by rw [he, hpk]) hqk
        · exact hm
    · rw [if_neg hpk] at h
      cases hrk : removeKey k rest with
      | none => rw [hrk] at h; cases h
      | some vr' =>
        rw [hrk] at h
        cases h
        constructor
        · intro hq
          rcases List.mem_cons.mp hq with he | hm
          · exact ⟨by rw [he]; exact List.mem_cons_self p rest, by rw [he]; exact hpk⟩
          · have := (ih hnd'.2 hrk q).mp hm
            exact ⟨List.mem_cons_of_mem p this.1, this.2⟩
        · intro ⟨hq, hqk⟩
          rcases List.mem_cons.mp hq with he | hm
          · rw [he]; exact List.mem_cons_self p vr'.2
          · exact List.mem_cons_of_mem p ((ih hnd'.2 hrk q).mpr ⟨hm, hqk⟩)

/-- The flush loop of `parallel_download`:
`while let Some(bytes) = pending.remove(&next) { file.write_all(&bytes); next += 1; }`. -/
def flushLoop (next : Nat) (pending : List (Nat × List Nat)) (file : List Nat) :
    Nat × List (Nat × List Nat) × List Nat :=
  match hrk : removeKey next pending with
  | none => (next, pending, file)
  | some vr => flushLoop (next + 1) vr.2 (file ++ vr.1)
termination_by pending.length
decreasing_by exact removeKey_length hrk

theorem flushLoop_none {next : Nat} {pending : List (Nat × List Nat)} {file : List Nat}
    (h : removeKey next pending = none) :
    flushLoop next pending file = (next, pending, file) := by
  rw [flushLoop.eq_def]
  split
  · rfl
  · rename_i vr h2
    rw [h] at h2
    cases h2

theorem flushLoop_some {next : Nat} {pending : List (Nat × List Nat)} {file : List Nat}
    {vr : List Nat × List (Nat × List Nat)} (h : removeKey next pending = some vr) :
    flushLoop next pending file = flushLoop (next + 1) vr.2 (file ++ vr.1) := by
  rw [flushLoop.eq_def]
  split
  · rename_i h2
    rw [h] at h2
    cases h2
  · rename_i vr' h2
    rw [h] at h2
    cases h2
    rfl

/-- Invariant of the reassembly loop after the flush: with `S` the set of
indices already received, everything below the cursor is received, the cursor
itself is not, the pending map holds exactly the received indices at or above
the cursor with their original payloads, keys are distinct, and the file is the
in-order concatenation of the flushed payloads. -/
theorem flushLoop_inv (chunks : List (List Nat)) (S : List Nat)
    (hS : ∀ i ∈ S, i < chunks.length) :
    ∀ (next : Nat) (pending : List (Nat × List Nat)) (file : List Nat),
    (∀ p : Nat × List Nat, p ∈ pending ↔ (p.1 ∈ S ∧ next ≤ p.1 ∧ p.2 = chunks.getD p.1 []))
    → (pending.map Prod.fst).Nodup
    → file = (chunks.take next).flatten
    → (∀ i, i < next → i ∈ S)
    → ((flushLoop next pending file).1 ∉ S
       ∧ (∀ i, i < (flushLoop next pending file).1 → i ∈ S)
       ∧ (∀ p : Nat × List Nat, p ∈ (flushLoop next pending file).2.1 ↔
            (p.1 ∈ S ∧ (flushLoop next pending file).1 ≤ p.1 ∧ p.2 = chunks.getD p.1 []))
       ∧ ((flushLoop next pending file).2.1.map Prod.fst).Nodup
       ∧ (flushLoop next pending file).2.2
           = (chunks.take (flushLoop next pending file).1).flatten) := by
  intro next pending file
  induction next, pending, file using flushLoop.induct with
  | case1 next pending file hnone =>
    intro hc hd he ha
    rw [flushLoop_none hnone]
    refine ⟨?_, ha, hc, hd, he⟩
    intro hin
    have hmem : (next, chunks.getD next []) ∈ pending :=
      (hc (next, chunks.getD next [])).mpr ⟨hin, Nat.le_refl next, rfl⟩
    exact removeKey_none hnone (chunks.getD next []) hmem
  | case2 next pending file vr h ih =>
    intro hc hd he ha
    rw [flushLoop_some h]
    have hmem : (next, vr.1) ∈ pending := removeKey_mem h
    have htrip := (hc (next, vr.1)).mp hmem
    have hnextS : next ∈ S := htrip.1
    have hval : vr.1 = chunks.getD next [] := htrip.2.2
    have hrest := removeKey_mem_rest hd h
    have hc' : ∀ p : Nat × List Nat, p ∈ vr.2 ↔
        (p.1 ∈ S ∧ next + 1 ≤ p.1 ∧ p.2 = chunks.getD p.1 []) := by
      intro p
      rw [hrest p, hc p]
      constructor
      · intro ⟨⟨h1, h2, h3⟩, hne⟩
        exact ⟨h1, by omega, h3⟩
      · intro ⟨h1, h2, h3⟩
        exact ⟨⟨h1, by omega, h3⟩, by omega⟩
    have hd' : (vr.2.map Prod.fst).Nodup :=
      List.Nodup.sublist (List.Sublist.map Prod.fst (removeKey_sublist h)) hd
    have hnlt : next < chunks.length := hS next hnextS
    have he' : file ++ vr.1 = (chunks.take (next + 1)).flatten := by
      rw [hval, he, List.take_succ, List.flatten_append,
        List.getElem?_eq_getElem hnlt]
      simp [List.getD_eq_getElem?_getD, List.getElem?_eq_getElem hnlt]
    have ha' : ∀ i, i < next + 1 → i ∈ S := by
      intro i hi
      rcases Nat.lt_or_ge i next with h' | h'
      · exact ha i h'
      · have : i = next := by omega
        rw [this]
        exact hnextS
    exact ih hc' hd' he' ha'

/-- One receive-loop iteration of `parallel_download`: insert the arrived
`(idx, bytes)` into the pending map, then run the flush loop. -/
def writerStep (st : Nat × List (Nat × List Nat) × List Nat) (msg : Nat × List Nat) :
    Nat × List (Nat × List Nat) × List Nat :=
  flushLoop st.1 (msg :: st.2.1) st.2.2

/-- The reassembly writer: fold the receive loop over the arrival sequence,
starting from cursor 0 with empty pending map and empty file; the second
projection of the final state is the bytes written to the output file. -/
def writerRun (msgs : List (Nat × List Nat)) : List Nat :=
  (msgs.foldl writerStep (0, [], [])).2.2

theorem writerRun_inv (chunks : List (List Nat)) :
    ∀ (msgs : List (Nat × List Nat)) (seen : List Nat)
      (st : Nat × List (Nat × List Nat) × List Nat),
    (∀ i ∈ seen, i < chunks.length)
    → (∀ m ∈ msgs, m.1 < chunks.length ∧ m.2 = chunks.getD m.1 [])
    → (seen ++ msgs.map Prod.fst).Nodup
    → st.1 ∉ seen
    → (∀ i, i < st.1 → i ∈ seen)
    → (∀ p : Nat × List Nat, p ∈ st.2.1 ↔
        (p.1 ∈ seen ∧ st.1 ≤ p.1 ∧ p.2 = chunks.getD p.1 []))
    → (st.2.1.map Prod.fst).Nodup
    → st.2.2 = (chunks.take st.1).flatten
    → ((msgs.foldl writerStep st).1 ∉ seen ++ msgs.map Prod.fst
       ∧ (∀ i, i < (msgs.foldl writerStep st).1 → i ∈ seen ++ msgs.map Prod.fst)
       ∧ (msgs.foldl writerStep st).2.2
           = (chunks.take (msgs.foldl writerStep st).1).flatten) := by
  intro msgs
  induction msgs with
  | nil =>
    intro seen st hS _ hnd hb ha _ _ he
    simp only [List.foldl_nil, List.map_nil, List.append_nil]
    exact ⟨hb, ha, he⟩
  | cons m rest ih =>
    intro seen st hS hm hnd hb ha hc hd he
    have hj : m.1 ∉ seen := by
      intro hx
      have hdis := List.disjoint_of_nodup_append hnd
      exact hdis hx (by simp)
    have hS' : ∀ i ∈ seen ++ [m.1], i < chunks.length := by
      intro i hi
      rcases List.mem_append.mp hi with h' | h'
      · exact hS i h'
      · rw [List.mem_singleton.mp h']
        exact (hm m (List.mem_cons_self m rest)).1
    have hmnext : st.1 ≤ m.1 := by
      by_contra hcon
      exact hj (ha m.1 (by omega))
    have hc0 : ∀ p : Nat × List Nat, p ∈ m :: st.2.1 ↔
        (p.1 ∈ seen ++ [m.1] ∧ st.1 ≤ p.1 ∧ p.2 = chunks.getD p.1 []) := by
      intro p
      constructor
      · intro hp
        rcases List.mem_cons.mp hp with rfl | hp'
        · exact ⟨List.mem_append_right seen (by simp),
            hmnext, (hm p (List.mem_cons_self p rest)).2⟩
        · have h3 := (hc p).mp hp'
          exact ⟨List.mem_append_left _ h3.1, h3.2.1, h3.2.2⟩
      · intro ⟨hp1, hp2, hp3⟩
        rcases List.mem_append.mp hp1 with h' | h'
        · exact List.mem_cons_of_mem m ((hc p).mpr ⟨h', hp2, hp3⟩)
        · have hpm1 : p.1 = m.1 := List.mem_singleton.mp h'
          have hpm : p = m := by
            apply Prod.ext hpm1
            rw [hp3, hpm1, ← (hm m (List.mem_cons_self m rest)).2]
          rw [hpm]
          exact List.mem_cons_self m st.2.1
    have hd0 : ((m :: st.2.1).map Prod.fst).Nodup := by
      rw [List.map_cons, List.nodup_cons]
      refine ⟨?_, hd⟩
      intro hx
      rcases List.mem_map.mp hx with ⟨q, hq, hq1⟩
      have := ((hc q).mp hq).1
      rw [hq1] at this
      exact hj this
    have ha0 : ∀ i, i < st.1 → i ∈ seen ++ [m.1] := by
      intro i hi
      exact List.mem_append_left _ (ha i hi)
    have hres := flushLoop_inv chunks (seen ++ [m.1]) hS' st.1 (m :: st.2.1) st.2.2
      hc0 hd0 he ha0
    have hnd' : ((seen ++ [m.1]) ++ rest.map Prod.fst).Nodup := by
      rw [List.append_assoc, List.singleton_append]
      simpa using hnd
    have hm' : ∀ m' ∈ rest, m'.1 < chunks.length ∧ m'.2 = chunks.getD m'.1 [] :=
      fun m' hm'' => hm m' (List.mem_cons_of_mem m hm'')
    have hfin := ih (seen ++ [m.1]) (writerStep st m) hS' hm' hnd'
      hres.1 hres.2.1 hres.2.2.1 hres.2.2.2.1 hres.2.2.2.2
    rw [List.foldl_cons]
    have hl : (seen ++ [m.1]) ++ rest.map Prod.fst
        = seen ++ (m :: rest).map Prod.fst := by
      rw [List.append_assoc, List.singleton_append, List.map_cons]
    rw [hl] at hfin
    exact hfin

/-- Claim C2: for every list of chunk payloads and every arrival order that is
a permutation of the indexed chunks, the reassembly writer writes exactly the
concatenation of the payloads in ascending index order. -/
theorem reassembly_writer_correct (chunks : List (List Nat))
    (msgs : List (Nat × List Nat)) (hperm : msgs.Perm chunks.enum) :
    writerRun msgs = chunks.flatten := by
  have hfst : (msgs.map Prod.fst).Perm (List.range chunks.length) := by
    have h1 := hperm.map Prod.fst
    rwa [List.enum_map_fst] at h1
  have hmm0 : ∀ m ∈ msgs, m.1 < chunks.length ∧ m.2 = chunks.getD m.1 [] := by
    intro m hm
    have hm2 : m ∈ chunks.enum := hperm.mem_iff.mp hm
    have hm3 : (m.1, m.2) ∈ List.enumFrom 0 chunks := hm2
    have h4 := List.mem_enumFrom hm3
    have h5 : m.1 < chunks.length := by omega
    refine ⟨h5, ?_⟩
    have h6 := h4.2.2
    rw [List.getD_eq_getElem?_getD, List.getElem?_eq_getElem h5]
    simpa using h6
  have hnd : (([] : List Nat) ++ msgs.map Prod.fst).Nodup := by
    rw [List.nil_append]
    exact (hfst.nodup_iff).mpr (List.nodup_range chunks.length)
  have hres := writerRun_inv chunks msgs [] (0, [], [])
    (fun i hi => absurd hi (List.not_mem_nil i))
    hmm0 hnd (List.not_mem_nil 0)
    (fun i hi => absurd hi (Nat.not_lt_zero i))
    (fun p => ⟨fun hp => absurd hp (List.not_mem_nil p),
      fun h => absurd h.1 (List.not_mem_nil p.1)⟩)
    List.nodup_nil rfl
  rw [List.nil_append] at hres
  have hmemiff : ∀ i, i ∈ msgs.map Prod.fst ↔ i < chunks.length := by
    intro i
    rw [hfst.mem_iff, List.mem_range]
  have hlen : (msgs.foldl writerStep (0, [], [])).1 = chunks.length := by
    rcases Nat.lt_trichotomy (msgs.foldl writerStep (0, [], [])).1 chunks.length
      with h' | h' | h'
    · exact absurd ((hmemiff _).mpr h') hres.1
    · exact h'
    · have := hres.2.1 chunks.length h'
      have := (hmemiff chunks.length).mp this
      omega
  unfold writerRun
  rw [hres.2.2, hlen, List.take_length]

theorem reassembly_writer_correct_witness :
    ([(1, [10, 11]), (0, [7]), (2, [12])] : List (Nat × List Nat)).Perm
        ([[7], [10, 11], [12]] : List (List Nat)).enum
    ∧ writerRun [(1, [10, 11]), (0, [7]), (2, [12])] = [7, 10, 11, 12] :=
  ⟨by decide, by
    rw [reassembly_writer_correct [[7], [10, 11], [12]]
      [(1, [10, 11]), (0, [7]), (2, [12])] (by decide)]
    rfl⟩

/-- The 64-character digit alphabet in `KwikClient::base_alphabet`. -/
def base_alphabet : List Char :=
  "0123456789abcdefghijklmnopqrstuvwxyzABCDEFGHIJKLMNOPQRSTUVWXYZ+/".toList

/-- Two's-complement wrap into the `i64` range: Rust release-profile integer
overflow semantics (`debug` builds would panic instead). -/
def wrap64 (x : Int) : Int := (x + 2 ^ 63) % 2 ^ 64 - 2 ^ 63

/-- Failure values of the embedded kwik client, mirroring `KwikError`.  The
`panic…` constructors model Rust panics (byte-slice out of range, division by
zero), which unwind rather than return `Err`, so they are kept distinct. -/
inductive KwikErr where
  | buildClient
  | request
  | responseBody
  | httpStatus (status : Nat) (body : List Char)
  | missingRedirectLocation
  | invalidAlphabetBaseIndex
  | missingKwikPostLink
  | missingToken
  | invalidOffset
  | invalidBase
  | retryLimitExceeded (link : List Char)
  | missingKwikLink
  | parseInt
  | panicSliceOutOfRange
  | panicDivByZero
deriving DecidableEq, Repr

def exceptDecEq {ε α : Type} [DecidableEq ε] [DecidableEq α] :
    (a b : Except ε α) → Decidable (a = b)
  | .error e1, .error e2 =>
    if h : e1 = e2 then isTrue (by rw [h])
    else isFalse (by intro hc; cases hc; exact h rfl)
  | .error _, .ok _ => isFalse (by intro hc; cases hc)
  | .ok _, .error _ => isFalse (by intro hc; cases hc)
  | .ok a1, .ok a2 =>
    if h : a1 = a2 then isTrue (by rw [h])
    else isFalse (by intro hc; cases hc; exact h rfl)

instance {ε α : Type} [DecidableEq ε] [DecidableEq α] : DecidableEq (Except ε α) :=
  exceptDecEq

/-- Decimal-digit test, `'0' ≤ c ≤ '9'`. -/
def isDigitChar (c : Char) : Bool := 48 ≤ c.toNat && c.toNat ≤ 57

/-- Numeric value of a decimal digit string. -/
def digitsVal (s : List Char) : Nat :=
  s.foldl (fun a c => a * 10 + (c.toNat - 48)) 0

/-- Rust `str::parse::<i64>`: optional sign, at least one decimal digit, value
within the i64 range; anything else is a `ParseIntError`. -/
def parseI64 (s : List Char) : Except Unit Int :=
  match s with
  | [] => .error ()
  | c :: rest =>
    let digits := if c = '-' ∨ c = '+' then rest else s
    if digits = [] then .error ()
    else if digits.all isDigitChar then
      if c = '-' then
        if digitsVal digits ≤ 2 ^ 63 then .ok (-(digitsVal digits : Int)) else .error ()
      else if digitsVal digits ≤ 2 ^ 63 - 1 then .ok ((digitsVal digits : Int))
      else .error ()
    else .error ()

/-- Rust `str::parse::<usize>` on a 64-bit target: optional `+`, decimal
digits, value below `2^64`. -/
def parseUsize (s : List Char) : Except Unit Nat :=
  match s with
  | [] => .error ()
  | c :: rest =>
    if c = '-' then .error ()
    else
      let digits := if c = '+' then rest else s
      if digits = [] then .error ()
      else if digits.all isDigitChar then
        if digitsVal digits ≤ 2 ^ 64 - 1 then .ok (digitsVal digits) else .error ()
      else .error ()

/-- Decimal digit character for `d < 10`. -/
def digitChar (d : Nat) : Char := Char.ofNat (48 + d)

/-- Digits loop with fuel (the source divides by 10 until 0; fuel `n` always
suffices for input `n`). -/
def natDigitsAux : Nat → Nat → List Char
  | 0, _ => []
  | _ + 1, 0 => []
  | fuel + 1, n + 1 => natDigitsAux fuel ((n + 1) / 10) ++ [digitChar ((n + 1) % 10)]

/-- Rust `usize::to_string`: decimal representation. -/
def natDigits (n : Nat) : List Char :=
  if n = 0 then ['0'] else natDigitsAux n n

/-- The output loop of `decode_base`:
`while v > 0 { out.insert(0, to_alphabet[(v % to_base) as usize] or '0'); v /= to_base; }`
with fuel.  For `to_base ≥ 2` the source loop terminates and 64 iterations
cover every i64 value; the call sites all pass `to_base = 10`. -/
def toBaseDigits (to_alphabet : List Char) (to_base : Nat) : Nat → Nat → List Char
  | 0, _ => []
  | _ + 1, 0 => []
  | fuel + 1, v + 1 =>
      toBaseDigits to_alphabet to_base fuel ((v + 1) / to_base)
        ++ [to_alphabet.getD ((v + 1) % to_base) '0']

/-- One step of the `decode_base` accumulation loop:
`if let Some(pos) = from_alphabet.find(ch) { value += pos * from_base.pow(idx) }`
with i64 release-profile wrap-around made explicit (`idx as u32` truncates). -/
def wrapStep (from_alphabet : List Char) (from_base : Nat) (value : Int)
    (pc : Nat × Char) : Int :=
  match from_alphabet.findIdx? (fun c => c = pc.2) with
  | some pos =>
      wrap64 (value + wrap64 ((pos : Int) * wrap64 ((from_base : Int) ^ (pc.1 % 2 ^ 32))))
  | none => value

/-- The accumulation loop of `decode_base` over the reversed input
(`input.chars().rev().enumerate()`). -/
def decodeBaseValue (from_alphabet : List Char) (from_base : Nat)
    (input : List Char) : Int :=
  (input.reverse.enum).foldl (wrapStep from_alphabet from_base) 0

/-- `KwikClient::decode_base`.  `&base_alphabet[..n]` panics for `n > 64`
(modelled as `panicSliceOutOfRange`); the conversion loop's `% to_base` with
`to_base = 0` panics; a wrapped-negative value skips the loop so the final
`parse::<i64>("")` fails. -/
def decode_base (input : List Char) (from_base to_base : Nat) : Except KwikErr Int :=
  if 64 < from_base ∨ 64 < to_base then .error .panicSliceOutOfRange
  else if decodeBaseValue (base_alphabet.take from_base) from_base input = 0 then
    (parseI64 [(base_alphabet.take to_base).headD '0']).mapError (fun _ => KwikErr.parseInt)
  else if 0 < decodeBaseValue (base_alphabet.take from_base) from_base input then
    if to_base = 0 then .error .panicDivByZero
    else (parseI64 (toBaseDigits (base_alphabet.take to_base) to_base 64
      (decodeBaseValue (base_alphabet.take from_base) from_base input).toNat)).mapError
      (fun _ => KwikErr.parseInt)
  else (parseI64 []).mapError (fun _ => KwikErr.parseInt)

/-- The sentinel-splitting loop of `decode_js_style`: collect characters up to
the sentinel, step past the sentinel, repeat while input remains.  A trailing
sentinel yields no trailing empty token; empty input yields no token. -/
def splitAux (sentinel : Char) (cur : List Char) : List Char → List (List Char)
  | [] => [cur.reverse]
  | c :: rest =>
    if c = sentinel then
      match rest with
      | [] => [cur.reverse]
      | _ :: _ => cur.reverse :: splitAux sentinel [] rest
    else splitAux sentinel (c :: cur) rest

def splitTokens (sentinel : Char) (cs : List Char) : List (List Char) :=
  match cs with
  | [] => []
  | _ :: _ => splitAux sentinel [] cs

/-- Rust `str::replace` with a one-character pattern: replace every occurrence
of `c` by `r`. -/
def replaceChar (s : List Char) (c : Char) (r : List Char) : List Char :=
  s.flatMap (fun ch => if ch = c then r else [ch])

/-- The substitution loop of `decode_js_style`: for each alphabet character in
document order, globally replace its occurrences by the decimal string of its
index.  Later replacements can rewrite digits introduced by earlier ones. -/
def substitute (alphabet_key tok : List Char) : List Char :=
  alphabet_key.enum.foldl (fun acc pc => replaceChar acc pc.2 (natDigits pc.1)) tok

/-- `char::from_u32(code as u32).unwrap_or(NUL)`: truncate the i64 code to the
low 32 bits; invalid scalar values fall back to NUL, which is exactly
`Char.ofNat`'s fallback. -/
def charFromCode (code : Int) : Char := Char.ofNat ((code % 2 ^ 32).toNat)

/-- `KwikClient::decode_js_style`: split the encoded text at the sentinel (the
alphabet character at position `base`), substitute each token, convert it from
base `base` via `decode_base(…, base, 10)`, subtract `offset` (wrapping), and
append the resulting code point (NUL fallback). -/
def decode_js_style (encoded alphabet_key : List Char) (offset : Int) (base : Nat) :
    Except KwikErr (List Char) :=
  match alphabet_key[base]? with
  | none => .error .invalidAlphabetBaseIndex
  | some sentinel =>
    (splitTokens sentinel encoded).mapM
      (fun tok => (decode_base (substitute alphabet_key tok) base 10).map
        (fun v => charFromCode (wrap64 (v - offset))))

/-- Digit weight of one (position, character) pair of the reversed input: its
alphabet index times `from_base ^ position`, 0 when the character is absent. -/
def digitWeight (from_alphabet : List Char) (from_base : Nat) (pc : Nat × Char) : Nat :=
  match from_alphabet.findIdx? (fun c => c = pc.2) with
  | some pos => pos * from_base ^ pc.1
  | none => 0

/-- Exact (non-wrapping) value of `input` read as a base-`from_base` numeral
with digits drawn from `from_alphabet`; absent characters count 0 but still
occupy a position. -/
def exactValue (from_alphabet : List Char) (from_base : Nat) (input : List Char) : Nat :=
  ((input.reverse.enum).map (digitWeight from_alphabet from_base)).sum

theorem wrap64_eq_self {x : Int} (h1 : -(2 ^ 63) ≤ x) (h2 : x < 2 ^ 63) : wrap64 x = x := by
  unfold wrap64
  have h3 : (0 : Int) ≤ x + 2 ^ 63 := by omega
  have h4 : x + 2 ^ 63 < 2 ^ 64 := by omega
  rw [Int.emod_eq_of_lt h3 h4]
  omega

theorem wrap64_zero : wrap64 0 = 0 := by decide

theorem wrapFold_exact (from_alphabet : List Char) (from_base : Nat) :
    ∀ (l : List (Nat × Char)) (acc : Nat),
    (∀ pc ∈ l, pc.1 < 2 ^ 32)
    → acc + (l.map (digitWeight from_alphabet from_base)).sum < 2 ^ 63
    → l.foldl (wrapStep from_alphabet from_base) ((acc : Nat) : Int)
        = ((acc + (l.map (digitWeight from_alphabet from_base)).sum : Nat) : Int) := by
  intro l
  induction l with
  | nil =>
    intro acc _ _
    simp
  | cons pc rest ih =>
    intro acc hidx hbound
    rw [List.map_cons, List.sum_cons] at hbound
    have hstep : wrapStep from_alphabet from_base ((acc : Nat) : Int) pc
        = ((acc + digitWeight from_alphabet from_base pc : Nat) : Int) := by
      cases hfi : from_alphabet.findIdx? (fun c => c = pc.2) with
      | none =>
        have hws : wrapStep from_alphabet from_base ((acc : Nat) : Int) pc
            = ((acc : Nat) : Int) := by
          unfold wrapStep
          rw [hfi]
        have hdw : digitWeight from_alphabet from_base pc = 0 := by
          unfold digitWeight
          rw [hfi]
        rw [hws, hdw]
        simp
      | some pos =>
        have hws : wrapStep from_alphabet from_base ((acc : Nat) : Int) pc
            = wrap64 (((acc : Nat) : Int) + wrap64 ((pos : Int)
                * wrap64 ((from_base : Int) ^ (pc.1 % 2 ^ 32)))) := by
          unfold wrapStep
          rw [hfi]
        have hdw : digitWeight from_alphabet from_base pc
            = pos * from_base ^ pc.1 := by
          unfold digitWeight
          rw [hfi]
        have hidx1 : pc.1 % 2 ^ 32 = pc.1 :=
          Nat.mod_eq_of_lt (hidx pc (List.mem_cons_self pc rest))
        rw [hws, hdw, hidx1]
        rw [hdw] at hbound
        rcases Nat.eq_zero_or_pos pos with hp0 | hp1
        · subst hp0
          have hacc : acc < 2 ^ 63 := by omega
          have hul : ((0 : Nat) : Int) * wrap64 ((from_base : Int) ^ pc.1) = 0 := by
            simp
          rw [hul, wrap64_zero, Int.add_zero]
          have hacc' : ((acc : Nat) : Int) < 2 ^ 63 := by exact_mod_cast hacc
          rw [wrap64_eq_self (by omega) hacc']
          simp
        · have hble : from_base ^ pc.1 ≤ pos * from_base ^ pc.1 :=
            Nat.le_mul_of_pos_left _ hp1
          have h1n : from_base ^ pc.1 < 2 ^ 63 := by omega
          have hcast : ((from_base : Int) ^ pc.1) = ((from_base ^ pc.1 : Nat) : Int) := by
            push_cast
            ring
          have h1i : ((from_base ^ pc.1 : Nat) : Int) < 2 ^ 63 := by exact_mod_cast h1n
          rw [hcast, wrap64_eq_self (by omega) h1i]
          have hcast2 : (pos : Int) * ((from_base ^ pc.1 : Nat) : Int)
              = ((pos * from_base ^ pc.1 : Nat) : Int) := by
            push_cast
            ring
          have h2n : pos * from_base ^ pc.1 < 2 ^ 63 := by omega
          have h2i : ((pos * from_base ^ pc.1 : Nat) : Int) < 2 ^ 63 := by
            exact_mod_cast h2n
          rw [hcast2, wrap64_eq_self (by omega) h2i]
          have hcast3 : ((acc : Nat) : Int) + ((pos * from_base ^ pc.1 : Nat) : Int)
              = ((acc + pos * from_base ^ pc.1 : Nat) : Int) := by
            push_cast
            ring
          have h3n : acc + pos * from_base ^ pc.1 < 2 ^ 63 := by omega
          have h3i : ((acc + pos * from_base ^ pc.1 : Nat) : Int) < 2 ^ 63 := by
            exact_mod_cast h3n
          rw [hcast3, wrap64_eq_self (by omega) h3i]
    rw [List.foldl_cons, hstep]
    have hr := ih (acc + digitWeight from_alphabet from_base pc)
      (fun q hq => hidx q (List.mem_cons_of_mem pc hq)) (by omega)
    rw [hr, List.map_cons, List.sum_cons]
    congr 1
    omega

theorem decodeBaseValue_exact (from_alphabet : List Char) (from_base : Nat)
    (input : List Char) (hlen : input.length ≤ 2 ^ 32)
    (hval : exactValue from_alphabet from_base input < 2 ^ 63) :
    decodeBaseValue from_alphabet from_base input
      = ((exactValue from_alphabet from_base input : Nat) : Int) := by
  have hidx : ∀ pc ∈ input.reverse.enum, pc.1 < 2 ^ 32 := by
    intro pc hpc
    have h4 := List.mem_enumFrom (show (pc.1, pc.2) ∈ List.enumFrom 0 input.reverse from hpc)
    have h5 : input.reverse.length = input.length := List.length_reverse input
    omega
  have h6 := wrapFold_exact from_alphabet from_base (input.reverse.enum) 0 hidx
    (by unfold exactValue at hval; omega)
  unfold decodeBaseValue exactValue
  simpa using h6

theorem toBaseDigits_zero (a : List Char) (b fuel : Nat) : toBaseDigits a b fuel 0 = [] := by
  cases fuel <;> rfl

theorem digit_getD {i : Nat} (h : i < 10) :
    (base_alphabet.take 10).getD i '0' = digitChar i := by
  interval_cases i <;> rfl

theorem digitChar_isDigit {d : Nat} (h : d < 10) : isDigitChar (digitChar d) = true := by
  interval_cases d <;> rfl

theorem digitChar_val {d : Nat} (h : d < 10) : (digitChar d).toNat - 48 = d := by
  interval_cases d <;> rfl

theorem digitsVal_append_digit (s : List Char) (c : Char) :
    digitsVal (s ++ [c]) = digitsVal s * 10 + (c.toNat - 48) := by
  unfold digitsVal
  rw [List.foldl_append]
  rfl

theorem toBaseDigits_spec :
    ∀ (fuel n : Nat), 1 ≤ n → n < 10 ^ fuel →
      (toBaseDigits (base_alphabet.take 10) 10 fuel n ≠ []
       ∧ (toBaseDigits (base_alphabet.take 10) 10 fuel n).all isDigitChar = true
       ∧ digitsVal (toBaseDigits (base_alphabet.take 10) 10 fuel n) = n) := by
  intro fuel
  induction fuel with
  | zero =>
    intro n h1 h2
    simp at h2
    omega
  | succ fuel ih =>
    intro n h1 h2
    obtain ⟨m, rfl⟩ : ∃ m, n = m + 1 := ⟨n - 1, by omega⟩
    rw [toBaseDigits]
    have hd10 : (m + 1) % 10 < 10 := Nat.mod_lt _ (by omega)
    rw [digit_getD hd10]
    rcases Nat.eq_zero_or_pos ((m + 1) / 10) with hq | hq
    · rw [hq, toBaseDigits_zero]
      have hn10 : m + 1 < 10 := by omega
      refine ⟨by simp, by simp [digitChar_isDigit hd10], ?_⟩
      have hmod : (m + 1) % 10 = m + 1 := Nat.mod_eq_of_lt hn10
      rw [hmod]
      simp [digitsVal]
      exact digitChar_val hn10
    · have hqlt : (m + 1) / 10 < 10 ^ fuel := by
        rw [pow_succ] at h2
        omega
      have ihq := ih ((m + 1) / 10) hq hqlt
      refine ⟨by simp, ?_, ?_⟩
      · rw [List.all_append]
        simp [ihq.2.1, digitChar_isDigit hd10]
      · rw [digitsVal_append_digit, ihq.2.2, digitChar_val hd10]
        omega

theorem isDigitChar_ne_sign {c : Char} (h : isDigitChar c = true) :
    ¬(c = '-' ∨ c = '+') := by
  intro hc
  rcases hc with hc | hc <;> subst hc <;> exact absurd h (by decide)

theorem parseI64_digits (s : List Char) (hne : s ≠ [])
    (hall : s.all isDigitChar = true) (hbound : digitsVal s ≤ 2 ^ 63 - 1) :
    parseI64 s = .ok ((digitsVal s : Nat) : Int) := by
  match s with
  | [] => exact absurd rfl hne
  | c :: rest =>
    have hc : isDigitChar c = true := by
      rw [List.all_cons] at hall
      exact (Bool.and_eq_true_iff.mp hall).1
    have hcs : ¬(c = '-' ∨ c = '+') := isDigitChar_ne_sign hc
    simp only [parseI64]
    rw [if_neg hcs]
    rw [if_neg (List.cons_ne_nil c rest)]
    rw [if_pos hall]
    rw [if_neg (fun h => hcs (Or.inl h))]
    rw [if_pos hbound]

theorem decode_base_exact (input : List Char) (from_base : Nat)
    (hb : from_base ≤ 64) (hlen : input.length ≤ 2 ^ 32)
    (hval : exactValue (base_alphabet.take from_base) from_base input < 2 ^ 63) :
    decode_base input from_base 10
      = .ok ((exactValue (base_alphabet.take from_base) from_base input : Nat) : Int) := by
  unfold decode_base
  rw [if_neg (by omega : ¬(64 < from_base ∨ 64 < (10 : Nat)))]
  rw [decodeBaseValue_exact _ _ _ hlen hval]
  rcases Nat.eq_zero_or_pos (exactValue (base_alphabet.take from_base) from_base input)
    with h0 | hpos
  · rw [h0]
    rw [if_pos (by simp)]
    rfl
  · rw [if_neg (by
      intro hz
      have : exactValue (base_alphabet.take from_base) from_base input = 0 := by
        exact_mod_cast hz
      omega)]
    rw [if_pos (by exact_mod_cast hpos)]
    rw [if_neg (by omega : ¬(10 : Nat) = 0)]
    have htw : ((exactValue (base_alphabet.take from_base) from_base input : Nat) : Int).toNat
        = exactValue (base_alphabet.take from_base) from_base input := Int.toNat_natCast _
    rw [htw]
    have hlt : exactValue (base_alphabet.take from_base) from_base input < 10 ^ 64 := by
      have h64 : (2 : Nat) ^ 63 < 10 ^ 64 := by decide
      omega
    have hspec := toBaseDigits_spec 64
      (exactValue (base_alphabet.take from_base) from_base input) hpos hlt
    rw [parseI64_digits _ hspec.1 hspec.2.1 (by omega)]
    rw [hspec.2.2]
    rfl

/-- The decode algorithm exactly as the specification wording of claim C3: each
token character is substituted by its zero-based index in `alphabet_key` (per
character, simultaneously), the resulting digit string is read as a base-`base`
numeral, `offset` is subtracted, and the resulting integer becomes a code point
with NUL fallback for malformed values. -/
def decodeSpec (encoded alphabet_key : List Char) (offset : Int) (base : Nat) :
    List Char :=
  match alphabet_key[base]? with
  | none => []
  | some sentinel =>
    (splitTokens sentinel encoded).map (fun tok =>
      Char.ofNat
        (((tok.flatMap (fun c =>
            match alphabet_key.findIdx? (fun c' => c' = c) with
            | some i => natDigits i
            | none => natDigits 0)).foldl
            (fun a c => a * (base : Int) + ((c.toNat : Int) - 48)) 0 - offset).toNat))

/-- Claim C3's algorithm as amended to what the code computes: the substitution
is a sequential global string replacement (later alphabet characters can
rewrite digits introduced by earlier ones), the substituted token is valued
with digit weights from the builtin base alphabet (characters outside it count
0), the offset subtraction wraps in i64, and the code point is the low 32 bits
with NUL fallback. -/
def decodeSpecAmended (encoded alphabet_key : List Char) (offset : Int) (base : Nat) :
    List Char :=
  match alphabet_key[base]? with
  | none => []
  | some sentinel =>
    (splitTokens sentinel encoded).map (fun tok =>
      charFromCode (wrap64
        ((exactValue (base_alphabet.take base) base (substitute alphabet_key tok) : Int)
          - offset)))

theorem mapM_ok {α β : Type} (f : α → Except KwikErr β) (g : α → β) :
    ∀ l : List α, (∀ a ∈ l, f a = .ok (g a)) → l.mapM f = .ok (l.map g) := by
  intro l
  induction l with
  | nil => intro _; rfl
  | cons x xs ih =>
    intro h
    rw [List.mapM_cons, h x (List.mem_cons_self x xs),
      ih (fun a ha => h a (List.mem_cons_of_mem x ha))]
    rfl

/-- Shared refinement fact: whenever the base index is valid, at most 64, and
every substituted token fits an i64, `decode_js_style` succeeds and returns
exactly the amended-specification string. -/
theorem decode_js_style_exact (encoded alphabet_key : List Char) (offset : Int)
    (base : Nat) (sentinel : Char) (hs : alphabet_key[base]? = some sentinel)
    (hb : base ≤ 64)
    (hfit : ∀ tok ∈ splitTokens sentinel encoded,
      exactValue (base_alphabet.take base) base (substitute alphabet_key tok) < 2 ^ 63
      ∧ (substitute alphabet_key tok).length ≤ 2 ^ 32) :
    decode_js_style encoded alphabet_key offset base
      = .ok (decodeSpecAmended encoded alphabet_key offset base) := by
  unfold decode_js_style decodeSpecAmended
  rw [hs]
  apply mapM_ok
  intro tok htok
  rw [decode_base_exact (substitute alphabet_key tok) base hb
    (hfit tok htok).2 (hfit tok htok).1]
  rfl

/-- Claim C3 fails as stated: with `alphabet_key = "x10a"` (no duplicate
characters), `base = 3`, `offset = 0`, the token `"x"` decodes to U+0002 —
the sequential replacement first turns `'x'` into `"0"` and then the later
alphabet character `'0'` (index 2) rewrites that digit — whereas the claimed
per-character index substitution yields U+0000. -/
theorem decoder_algorithm_counterexample :
    decode_js_style ['x'] ['x', '1', '0', 'a'] 0 3
      ≠ Except.ok (decodeSpec ['x'] ['x', '1', '0', 'a'] 0 3) := by
  decide

/-- Claim C3 (amended): `decode_js_style` splits the encoded text at the
sentinel `alphabet_key[base]` (sentinel excluded), processes tokens left to
right with output order matching token order, substitutes by sequential global
replacement of each alphabet character (in document order) by its zero-based
index, reinterprets the substituted string as a base-`base` numeral over the
builtin digit alphabet (foreign characters contribute digit 0), subtracts
`offset` with i64 wrap-around, and appends the low 32 bits as a code point
with NUL fallback — provided `base ≤ 64` and each substituted token's value
fits in an i64 (otherwise the code panics or errors, see C4). -/
theorem decoder_algorithm (encoded alphabet_key : List Char) (offset : Int)
    (base : Nat) (sentinel : Char) (hs : alphabet_key[base]? = some sentinel)
    (hb : base ≤ 64)
    (hfit : ∀ tok ∈ splitTokens sentinel encoded,
      exactValue (base_alphabet.take base) base (substitute alphabet_key tok) < 2 ^ 63
      ∧ (substitute alphabet_key tok).length ≤ 2 ^ 32) :
    decode_js_style encoded alphabet_key offset base
      = .ok (decodeSpecAmended encoded alphabet_key offset base) :=
  decode_js_style_exact encoded alphabet_key offset base sentinel hs hb hfit

theorem decoder_algorithm_witness :
    decode_js_style ['b', 'c', 'f', 'b'] ['a', 'b', 'c', 'd', 'e', 'f'] 0 5
      = .ok (decodeSpecAmended ['b', 'c', 'f', 'b'] ['a', 'b', 'c', 'd', 'e', 'f'] 0 5) :=
  decoder_algorithm ['b', 'c', 'f', 'b'] ['a', 'b', 'c', 'd', 'e', 'f'] 0 5 'f'
    (by decide) (by decide) (by decide)

/-- Claim C4 fails as stated: with the 66-character duplicate-free alphabet key
`base_alphabet ++ "!#"` and the valid base index 65, decoding any non-empty
token panics — `&base_alphabet[..65]` is out of range — instead of returning a
string. -/
theorem decoder_total_counterexample :
    (base_alphabet ++ ['!', '#']).Nodup
    ∧ ((base_alphabet ++ ['!', '#'])[65]?).isSome
    ∧ decode_js_style ['!'] (base_alphabet ++ ['!', '#']) 0 65
        = .error .panicSliceOutOfRange := by
  decide

/-- Claim C4 (amended): for alphabet keys without duplicate characters whose
`base` indexes a valid position, `decode_js_style` is a deterministic pure
function, and it is total (returns `.ok`, never an error or panic) provided
additionally `base ≤ 64` and every substituted token fits in an i64; beyond
those bounds the byte-slice panics or integer wrap-around fails the final
parse.  A substituted character outside the first `base` builtin digits
contributes digit value 0 at its position. -/
theorem decoder_total (encoded alphabet_key : List Char) (offset : Int)
    (base : Nat) (sentinel : Char) (hnd : alphabet_key.Nodup)
    (hs : alphabet_key[base]? = some sentinel) (hb : base ≤ 64)
    (hfit : ∀ tok ∈ splitTokens sentinel encoded,
      exactValue (base_alphabet.take base) base (substitute alphabet_key tok) < 2 ^ 63
      ∧ (substitute alphabet_key tok).length ≤ 2 ^ 32) :
    ∃ out, decode_js_style encoded alphabet_key offset base = .ok out :=
  ⟨decodeSpecAmended encoded alphabet_key offset base,
    decode_js_style_exact encoded alphabet_key offset base sentinel hs hb hfit⟩

theorem decoder_total_witness :
    (['a', 'b', 'c', 'd', 'e', 'f'] : List Char).Nodup
    ∧ ∃ out, decode_js_style ['b', 'c', 'f', 'b'] ['a', 'b', 'c', 'd', 'e', 'f'] 1 5
        = .ok out :=
  ⟨by decide, decoder_total ['b', 'c', 'f', 'b'] ['a', 'b', 'c', 'd', 'e', 'f'] 1 5 'f'
    (by decide) (by decide) (by decide) (by decide)⟩

/-- Result of reading a response body (`Response::text()` can fail). -/
inductive HttpText where
  | ok (body : List Char)
  | err
deriving DecidableEq, Repr

/-- Outcome of one GET request. -/
inductive GetOutcome where
  | reqErr
  | resp (status : Nat) (text : HttpText)
deriving DecidableEq, Repr

/-- The POST request built by `fetch_kwik_direct`; only the pieces the claims
speak about are modelled (target URL, form fields, redirect policy) — the
fixed request headers are not. -/
structure PostRequest where
  url : List Char
  form : List (List Char × List Char)
  no_redirect : Bool
deriving DecidableEq, Repr

/-- Outcome of one POST request: status, the `Location` header when present
and readable as a string, and the body text. -/
inductive PostOutcome where
  | reqErr
  | resp (status : Nat) (location : Option (List Char)) (text : HttpText)
deriving DecidableEq, Repr

/-- The resolver's external collaborators: the network (the pahe-page GET, the
k-th kwik-page GET, the form POST) and the `regex` crate (first captures of
the packed-payload pattern and the direct kwik-URL pattern, and
`extract_link_and_token`, which returns the form action and `_token` or fails
with a missing-link/missing-token error). -/
structure KwikEnv where
  paheGet : GetOutcome
  kwikGet : Nat → GetOutcome
  post : PostRequest → PostOutcome
  locate : List Char → Option (List Char × List Char × List Char × List Char)
  kwikDirect : List Char → Option (List Char)
  extractLT : List Char → Option (List Char × List Char)

/-- `"<failed to read error body>"`, the `unwrap_or_else` fallback when the
text of an error response cannot be read. -/
def failedBody : List Char := "<failed to read error body>".toList

def textOrFailed : HttpText → List Char
  | .ok b => b
  | .err => failedBody

/-- `body.replace(['\n', '\r'], "")`: newline stripping before regex search. -/
def stripNewlines (s : List Char) : List Char :=
  s.filter (fun c => if c = '\n' ∨ c = '\r' then false else true)

/-- `DirectLink` (kwik.rs): the referer to accompany later requests and the
final redirected media URL. -/
structure DirectLink where
  referer : List Char
  direct_link : List Char
deriving DecidableEq, Repr

def tokenField : List Char := "_token".toList

/-- The POST built by `fetch_kwik_direct`: the action URL with `_token` as the
only form field, issued on the client whose redirect policy is `none`. -/
def mkPostRequest (kwik_link token : List Char) : PostRequest :=
  ⟨kwik_link, [(tokenField, token)], true⟩

/-- `KwikClient::fetch_kwik_direct`: POST the form; any status other than 302
is fatal with the body attached; a 302 without a readable `Location` header is
`MissingRedirectLocation`; otherwise the header value is returned. -/
def fetch_kwik_direct (env : KwikEnv) (kwik_link token : List Char) :
    Except KwikErr (List Char) :=
  match env.post (mkPostRequest kwik_link token) with
  | .reqErr => .error .request
  | .resp status location text =>
    if status ≠ 302 then .error (.httpStatus status (textOrFailed text))
    else match location with
      | none => .error .missingRedirectLocation
      | some loc => .ok loc

/-- Does this failure model a panic?  Panics unwind instead of being matched
as `Err` by the retry logic. -/
def KwikErr.isPanic : KwikErr → Bool
  | .panicSliceOutOfRange => true
  | .panicDivByZero => true
  | _ => false

/-- `KwikClient::fetch_kwik_dlink`: bounded retry resolution of a kwik page.
`attempt` indexes the GET oracle (the source re-fetches the page on every
retry).  Missing payload, decode failure, and link/token extraction failure
consume one budget unit and recurse; request/HTTP/body errors and
capture-parse failures are fatal, and modelled panics propagate. -/
def fetch_kwik_dlink (env : KwikEnv) (kwik_link : List Char) :
    Nat → Nat → Except KwikErr (List Char)
  | 0, _ => .error (.retryLimitExceeded kwik_link)
  | retries + 1, attempt =>
    match env.kwikGet attempt with
    | .reqErr => .error .request
    | .resp status text =>
      if ¬(200 ≤ status ∧ status < 300) then
        .error (.httpStatus status (textOrFailed text))
      else match text with
        | .err => .error .responseBody
        | .ok body =>
          match env.locate (stripNewlines body) with
          | none => fetch_kwik_dlink env kwik_link retries (attempt + 1)
          | some (encoded, alphabet_key, offsetStr, baseStr) =>
            match (parseI64 offsetStr).toOption with
            | none => .error .invalidOffset
            | some offset =>
              match (parseUsize baseStr).toOption with
              | none => .error .invalidBase
              | some base =>
                match decode_js_style encoded alphabet_key offset base with
                | .error e =>
                  if e.isPanic then .error e
                  else fetch_kwik_dlink env kwik_link retries (attempt + 1)
                | .ok decoded =>
                  match env.extractLT decoded with
                  | none => fetch_kwik_dlink env kwik_link retries (attempt + 1)
                  | some (link, token) => fetch_kwik_direct env link token

/-- `str::replace("/d/", "/f/")`: leftmost non-overlapping occurrences. -/
def replaceDF : List Char → List Char
  | '/' :: 'd' :: '/' :: rest => '/' :: 'f' :: '/' :: replaceDF rest
  | c :: rest => c :: replaceDF rest
  | [] => []

/-- The kwik-link selection of `extract_kwik_link`: prefer a direct kwik URL
found in the page text (used unchanged); otherwise locate a packed payload,
decode it (failures here are fatal, unlike in `fetch_kwik_dlink`), search the
decoded text for the kwik URL and replace `/d/` by `/f/`. -/
def kwikChoice (env : KwikEnv) (body : List Char) :
    Except KwikErr (Option (List Char)) :=
  match env.kwikDirect body with
  | some l => .ok (some l)
  | none =>
    match env.locate body with
    | none => .ok none
    | some (encoded, alphabet_key, offsetStr, baseStr) =>
      match (parseI64 offsetStr).toOption with
      | none => .error .invalidOffset
      | some offset =>
        match (parseUsize baseStr).toOption with
        | none => .error .invalidBase
        | some base =>
          match decode_js_style encoded alphabet_key offset base with
          | .error e => .error e
          | .ok decoded => .ok ((env.kwikDirect decoded).map replaceDF)

/-- `KwikClient::extract_kwik_link`: fetch the pahe page, choose the kwik
link, then resolve it through `fetch_kwik_dlink` with retry budget 5; the
returned `DirectLink` pairs the chosen kwik link (as referer) with the
resolved direct URL. -/
def extract_kwik_link (env : KwikEnv) (pahe_link : List Char) :
    Except KwikErr DirectLink :=
  match env.paheGet with
  | .reqErr => .error .request
  | .resp status text =>
    if ¬(200 ≤ status ∧ status < 300) then
      .error (.httpStatus status (textOrFailed text))
    else match text with
      | .err => .error .responseBody
      | .ok body =>
        match kwikChoice env (stripNewlines body) with
        | .error e => .error e
        | .ok none => .error .missingKwikLink
        | .ok (some kwik_link) =>
          match fetch_kwik_dlink env kwik_link 5 0 with
          | .error e => .error e
          | .ok direct_link => .ok ⟨kwik_link, direct_link⟩

/-- Pahe-side failure values (a subset of `PaheError`). -/
inductive PaheFail where
  | ddosGuard (hint : List Char)
  | httpStatus (status : Nat) (body : List Char)
deriving DecidableEq, Repr

/-- `str::contains` (ASCII patterns, so byte- and character-level substring
search coincide). -/
def containsSub (s pat : List Char) : Bool :=
  s.tails.any (fun t => pat.isPrefixOf t)

/-- `PaheClient::detect_ddos_guard`. -/
def detect_ddos_guard (body : List Char) : Bool :=
  containsSub body "DDoS-Guard".toList
  || containsSub body "/.well-known/ddos-guard/js-challenge".toList
  || containsSub body "Checking your browser before accessing".toList

def ddgHintWithCookie : List Char :=
  ("DDoS-Guard challenge detected even with provided cookie header. "
    ++ "Refresh cookies from a real browser session.").toList

def ddgHintNoCookie : List Char :=
  ("DDoS-Guard challenge detected. Solve challenge in a real browser "
    ++ "and initialize .cookies_str(COOKIES)").toList

/-- `PaheClient::ensure_success_or_ddg` on an already-received response:
success passes through; a 403 whose body carries a DDoS-Guard marker becomes
the distinct `ddosGuard` error with a remediation hint; any other non-success
status is the generic HTTP-status error with the body. -/
def ensure_success_or_ddg (status : Nat) (text : HttpText) (cookie_hint : Bool) :
    Except PaheFail Unit :=
  if 200 ≤ status ∧ status < 300 then .ok ()
  else if status = 403 ∧ detect_ddos_guard (textOrFailed text) = true then
    .error (.ddosGuard (if cookie_hint then ddgHintWithCookie else ddgHintNoCookie))
  else .error (.httpStatus status (textOrFailed text))

/-- Attempt `k` of the kwik resolver fails retryably: the page GET succeeds and
its body is readable, but payload location, decoding, or link/token extraction
fails (capture-parse failures and panics are fatal, not retryable). -/
def RetryableAt (env : KwikEnv) (k : Nat) : Prop :=
  ∃ status body, env.kwikGet k = .resp status (.ok body)
    ∧ 200 ≤ status ∧ status < 300
    ∧ (env.locate (stripNewlines body) = none
       ∨ ∃ encoded alphabet_key offsetStr baseStr offset base,
           env.locate (stripNewlines body)
             = some (encoded, alphabet_key, offsetStr, baseStr)
           ∧ (parseI64 offsetStr).toOption = some offset
           ∧ (parseUsize baseStr).toOption = some base
           ∧ ((∃ e, decode_js_style encoded alphabet_key offset base = .error e
                 ∧ e.isPanic = false)
              ∨ ∃ decoded,
                  decode_js_style encoded alphabet_key offset base = .ok decoded
                  ∧ env.extractLT decoded = none))

theorem fetch_kwik_dlink_step (env : KwikEnv) (kwik_link : List Char)
    (r a : Nat) (h : RetryableAt env a) :
    fetch_kwik_dlink env kwik_link (r + 1) a
      = fetch_kwik_dlink env kwik_link r (a + 1) := by
  obtain ⟨status, body, hget, h1, h2, hfail⟩ := h
  rw [fetch_kwik_dlink]
  rw [hget]
  simp only []
  rw [if_neg (fun hc => hc ⟨h1, h2⟩)]
  rcases hfail with hnone | ⟨enc, key, offS, baseS, off, base, hloc, hoff, hbase, hdx⟩
  · simp only [hnone]
  · simp only [hloc, hoff, hbase]
    rcases hdx with ⟨e, hde, hp⟩ | ⟨d, hdd, hext⟩
    · simp only [hde, hp]
      rw [if_neg (by simp)]
    · simp only [hdd, hext]

theorem fetch_kwik_dlink_exhaust (env : KwikEnv) (kwik_link : List Char) :
    ∀ (r a : Nat), (∀ k, k < r → RetryableAt env (a + k)) →
    fetch_kwik_dlink env kwik_link r a = .error (.retryLimitExceeded kwik_link) := by
  intro r
  induction r with
  | zero => intro a _; rfl
  | succ r ih =>
    intro a h
    have h0 : RetryableAt env a := by
      have := h 0 (by omega)
      simpa using this
    rw [fetch_kwik_dlink_step env kwik_link r a h0]
    apply ih
    intro k hk
    have hx := h (k + 1) (by omega)
    have he : a + (k + 1) = a + 1 + k := by omega
    rw [he] at hx
    exact hx

/-- Claim C5: the Mirror Resolver retries the full fetch-decode-extract
sequence; each retryable failure (payload not located, decode error, or
link/token extraction failure) consumes exactly one budget unit and re-fetches
the page; an exhausted budget fails with `RetryLimitExceeded` carrying the
link; and `extract_kwik_link` invokes the loop with the default budget 5, so
five consecutive retryable failures surface `RetryLimitExceeded` with the
original mirror link. -/
theorem mirror_resolver_retry (env : KwikEnv) (link pahe_link : List Char)
    (r a : Nat) :
    (RetryableAt env a →
      fetch_kwik_dlink env link (r + 1) a = fetch_kwik_dlink env link r (a + 1))
    ∧ ((∀ k, k < r → RetryableAt env (a + k)) →
      fetch_kwik_dlink env link r a = .error (.retryLimitExceeded link))
    ∧ (∀ status body,
        env.paheGet = .resp status (.ok body) → 200 ≤ status → status < 300 →
        kwikChoice env (stripNewlines body) = .ok (some link) →
        (∀ k, k < 5 → RetryableAt env k) →
        extract_kwik_link env pahe_link = .error (.retryLimitExceeded link)) := by
  refine ⟨fetch_kwik_dlink_step env link r a, fetch_kwik_dlink_exhaust env link r a, ?_⟩
  intro status body hpahe h1 h2 hchoice hretry
  unfold extract_kwik_link
  rw [hpahe]
  simp only []
  rw [if_neg (fun hc => hc ⟨h1, h2⟩)]
  simp only [hchoice]
  rw [fetch_kwik_dlink_exhaust env link 5 0 (fun k hk => by simpa using hretry k hk)]

/-- Environment whose kwik page never contains a packed payload: every attempt
fails retryably at the payload-location step. -/
def envRetry : KwikEnv :=
  ⟨.resp 200 (.ok ['P']),
   fun _ => .resp 200 (.ok ['B']),
   fun _ => .reqErr,
   fun _ => none,
   fun b => if b = ['P'] then some ['K'] else none,
   fun _ => none⟩

theorem mirror_resolver_retry_witness :
    extract_kwik_link envRetry ['p'] = .error (.retryLimitExceeded ['K']) :=
  (mirror_resolver_retry envRetry ['K'] ['p'] 5 0).2.2 200 ['P'] rfl (by omega) (by omega)
    (by decide) (fun k _ => ⟨200, ['B'], rfl, by omega, by omega, Or.inl rfl⟩)

/-- Attempt `a` of the kwik resolver reaches the form-submission step with
this action URL and token. -/
def ReachesPost (env : KwikEnv) (a : Nat) (action token : List Char) : Prop :=
  ∃ status body encoded alphabet_key offsetStr baseStr offset base decoded,
    env.kwikGet a = .resp status (.ok body)
    ∧ 200 ≤ status ∧ status < 300
    ∧ env.locate (stripNewlines body) = some (encoded, alphabet_key, offsetStr, baseStr)
    ∧ (parseI64 offsetStr).toOption = some offset
    ∧ (parseUsize baseStr).toOption = some base
    ∧ decode_js_style encoded alphabet_key offset base = .ok decoded
    ∧ env.extractLT decoded = some (action, token)

theorem fetch_kwik_dlink_posts (env : KwikEnv) (kwik_link action token : List Char)
    (r a : Nat) (h : ReachesPost env a action token) :
    fetch_kwik_dlink env kwik_link (r + 1) a = fetch_kwik_direct env action token := by
  obtain ⟨status, body, enc, key, offS, baseS, off, base, d,
    hget, h1, h2, hloc, hoff, hbase, hdec, hext⟩ := h
  rw [fetch_kwik_dlink]
  rw [hget]
  simp only []
  rw [if_neg (fun hc => hc ⟨h1, h2⟩)]
  simp only [hloc, hoff, hbase, hdec, hext]

/-- Claim C7: the form submission POSTs the action URL with `_token` as the
sole form field on the redirect-disabled client; a non-302 response is fatal
with the body attached and is never retried (for every remaining retry budget
the error comes back unchanged); a 302 without a Location header fails with
`MissingRedirectLocation`. -/
theorem form_submission (env : KwikEnv) (action token : List Char) :
    (mkPostRequest action token).url = action
    ∧ (mkPostRequest action token).form = [(tokenField, token)]
    ∧ (mkPostRequest action token).no_redirect = true
    ∧ (∀ status loc text, status ≠ 302 →
        env.post (mkPostRequest action token) = .resp status loc text →
        fetch_kwik_direct env action token
          = .error (.httpStatus status (textOrFailed text)))
    ∧ (∀ text, env.post (mkPostRequest action token) = .resp 302 none text →
        fetch_kwik_direct env action token = .error .missingRedirectLocation)
    ∧ (∀ link r a status loc text, ReachesPost env a action token → status ≠ 302 →
        env.post (mkPostRequest action token) = .resp status loc text →
        fetch_kwik_dlink env link (r + 1) a
          = .error (.httpStatus status (textOrFailed text))) := by
  refine ⟨rfl, rfl, rfl, ?_, ?_, ?_⟩
  · intro status loc text hs hpost
    unfold fetch_kwik_direct
    rw [hpost]
    simp only []
    rw [if_pos hs]
  · intro text hpost
    unfold fetch_kwik_direct
    rw [hpost]
    simp only []
    rw [if_neg (by omega : ¬(302 : Nat) ≠ 302)]
  · intro link r a status loc text hreach hs hpost
    rw [fetch_kwik_dlink_posts env link action token r a hreach]
    unfold fetch_kwik_direct
    rw [hpost]
    simp only []
    rw [if_pos hs]

/-- Environment whose single kwik attempt reaches the form POST and receives a
non-302 response. -/
def envPost : KwikEnv :=
  ⟨.reqErr,
   fun _ => .resp 200 (.ok ['B']),
   fun req => if req.url = ['A'] then .resp 500 none (.ok ['b', 'a', 'd']) else .reqErr,
   fun b => if b = ['B'] then some ([], ['k', 'y'], ['0'], ['1']) else none,
   fun _ => none,
   fun d => if d = [] then some (['A'], ['T']) else none⟩

theorem form_submission_witness :
    fetch_kwik_direct envPost ['A'] ['T'] = .error (.httpStatus 500 ['b', 'a', 'd'])
    ∧ fetch_kwik_dlink envPost ['K'] 5 0 = .error (.httpStatus 500 ['b', 'a', 'd'])
    ∧ (mkPostRequest ['A'] ['T']).form = [(tokenField, ['T'])] :=
  ⟨(form_submission envPost ['A'] ['T']).2.2.2.1 500 none (.ok ['b', 'a', 'd'])
      (by omega) (by decide),
   (form_submission envPost ['A'] ['T']).2.2.2.2.2 ['K'] 4 0 500 none (.ok ['b', 'a', 'd'])
      ⟨200, ['B'], [], ['k', 'y'], ['0'], ['1'], 0, 1, [],
        rfl, by omega, by omega, by decide, by decide, by decide, by decide, by decide⟩
      (by omega) (by decide),
   rfl⟩

theorem fetch_kwik_direct_ok (env : KwikEnv) (action token dl : List Char)
    (h : fetch_kwik_direct env action token = .ok dl) :
    ∃ text, env.post (mkPostRequest action token) = .resp 302 (some dl) text := by
  unfold fetch_kwik_direct at h
  cases hpost : env.post (mkPostRequest action token) with
  | reqErr =>
    rw [hpost] at h
    simp only [] at h
    cases h
  | resp status location text =>
    rw [hpost] at h
    simp only [] at h
    by_cases h302 : status = 302
    · subst h302
      rw [if_neg (by omega : ¬(302 : Nat) ≠ 302)] at h
      cases location with
      | none => cases h
      | some loc =>
        simp only [] at h
        cases h
        exact ⟨text, rfl⟩
    · rw [if_pos h302] at h
      cases h

theorem fetch_kwik_dlink_ok_post (env : KwikEnv) (link : List Char) :
    ∀ (r a : Nat) (dl : List Char),
    fetch_kwik_dlink env link r a = .ok dl →
    ∃ action token text,
      env.post (mkPostRequest action token) = .resp 302 (some dl) text := by
  intro r
  induction r with
  | zero =>
    intro a dl h
    cases h
  | succ r ih =>
    intro a dl h
    rw [fetch_kwik_dlink] at h
    cases hget : env.kwikGet a with
    | reqErr =>
      rw [hget] at h
      cases h
    | resp status text =>
      rw [hget] at h
      simp only [] at h
      by_cases hsucc : 200 ≤ status ∧ status < 300
      · rw [if_neg (not_not_intro hsucc)] at h
        cases text with
        | err => cases h
        | ok body =>
          simp only [] at h
          cases hloc : env.locate (stripNewlines body) with
          | none =>
            rw [hloc] at h
            simp only [] at h
            exact ih (a + 1) dl h
          | some caps =>
            obtain ⟨enc, key, offS, baseS⟩ := caps
            rw [hloc] at h
            simp only [] at h
            cases hoff : (parseI64 offS).toOption with
            | none => rw [hoff] at h; simp only [] at h; cases h
            | some off =>
              rw [hoff] at h
              simp only [] at h
              cases hbase : (parseUsize baseS).toOption with
              | none => rw [hbase] at h; simp only [] at h; cases h
              | some base =>
                rw [hbase] at h
                simp only [] at h
                cases hdec : decode_js_style enc key off base with
                | error e =>
                  rw [hdec] at h
                  simp only [] at h
                  by_cases hp : e.isPanic = true
                  · rw [if_pos hp] at h
                    cases h
                  · rw [if_neg hp] at h
                    exact ih (a + 1) dl h
                | ok decoded =>
                  rw [hdec] at h
                  simp only [] at h
                  cases hext : env.extractLT decoded with
                  | none =>
                    rw [hext] at h
                    simp only [] at h
                    exact ih (a + 1) dl h
                  | some lt =>
                    obtain ⟨action, token⟩ := lt
                    rw [hext] at h
                    simp only [] at h
                    obtain ⟨text2, hp2⟩ := fetch_kwik_direct_ok env action token dl h
                    exact ⟨action, token, text2, hp2⟩
      · rw [if_pos hsucc] at h
        cases h

/-- Claim C6 (amended): when the Mirror Resolver reaches the Resolved state,
`direct_link` equals the Location header of the 302 POST response, while
`referer` equals the kwik page link chosen from the mirror page — not the
form's action URL, which can differ (see the counterexample). -/
theorem resolved_link_shape (env : KwikEnv) (pahe_link : List Char)
    (res : DirectLink) (h : extract_kwik_link env pahe_link = .ok res) :
    (∃ status body, env.paheGet = .resp status (.ok body)
      ∧ kwikChoice env (stripNewlines body) = .ok (some res.referer))
    ∧ (∃ action token text,
        env.post (mkPostRequest action token) = .resp 302 (some res.direct_link) text) := by
  unfold extract_kwik_link at h
  cases hpg : env.paheGet with
  | reqErr =>
    rw [hpg] at h
    cases h
  | resp status text =>
    rw [hpg] at h
    simp only [] at h
    by_cases hsucc : 200 ≤ status ∧ status < 300
    · rw [if_neg (not_not_intro hsucc)] at h
      cases text with
      | err => cases h
      | ok body =>
        simp only [] at h
        cases hch : kwikChoice env (stripNewlines body) with
        | error e =>
          rw [hch] at h
          cases h
        | ok choice =>
          rw [hch] at h
          cases choice with
          | none => cases h
          | some kwik_link =>
            simp only [] at h
            cases hdl : fetch_kwik_dlink env kwik_link 5 0 with
            | error e =>
              rw [hdl] at h
              cases h
            | ok direct_link =>
              rw [hdl] at h
              simp only [] at h
              cases h
              refine ⟨⟨status, body, rfl, hch⟩, ?_⟩
              exact fetch_kwik_dlink_ok_post env kwik_link 5 0 direct_link hdl
    · rw [if_pos hsucc] at h
      cases h

/-- Environment where the kwik page link `K` differs from the form action `A`
extracted from the decoded payload, and resolution succeeds. -/
def envRef : KwikEnv :=
  ⟨.resp 200 (.ok ['P']),
   fun _ => .resp 200 (.ok ['B']),
   fun req => if req.url = ['A'] then .resp 302 (some ['L']) (.ok []) else .reqErr,
   fun b => if b = ['B'] then some ([], ['k', 'y'], ['0'], ['1']) else none,
   fun b => if b = ['P'] then some ['K'] else none,
   fun d => if d = [] then some (['A'], ['T']) else none⟩

/-- Claim C6 fails as stated: resolution succeeds with the form POSTed to the
action URL `"A"`, yet the returned referer is the kwik page link `"K"`, not
the action URL. -/
theorem resolved_link_counterexample :
    extract_kwik_link envRef ['p'] = .ok ⟨['K'], ['L']⟩
    ∧ envRef.post (mkPostRequest ['A'] ['T']) = .resp 302 (some ['L']) (.ok [])
    ∧ (['K'] : List Char) ≠ ['A'] := by
  decide

theorem resolved_link_shape_witness :
    (∃ status body, envRef.paheGet = .resp status (.ok body)
      ∧ kwikChoice envRef (stripNewlines body) = .ok (some (['K'] : List Char)))
    ∧ (∃ action token text,
        envRef.post (mkPostRequest action token) = .resp 302 (some (['L'] : List Char)) text) :=
  resolved_link_shape envRef ['p'] ⟨['K'], ['L']⟩ (by decide)

/-- Claim C8 (amended): every response checked through
`ensure_success_or_ddg` whose status is 403 and whose body carries a
DDoS-Guard challenge marker surfaces the distinct `ddosGuard` error with a
non-empty remediation hint, never the generic HTTP-status error.  The kwik
resolver's own fetch steps do not perform this check and return the generic
error even when the marker is present (see the counterexample). -/
theorem ddos_guard_detection (status : Nat) (body : List Char) (cookie_hint : Bool)
    (h403 : status = 403) (hdet : detect_ddos_guard body = true) :
    ensure_success_or_ddg status (.ok body) cookie_hint
      = .error (.ddosGuard (if cookie_hint then ddgHintWithCookie else ddgHintNoCookie))
    ∧ (if cookie_hint then ddgHintWithCookie else ddgHintNoCookie) ≠ []
    ∧ ∀ s b, ensure_success_or_ddg status (.ok body) cookie_hint
        ≠ .error (.httpStatus s b) := by
  subst h403
  unfold ensure_success_or_ddg
  rw [if_neg (by omega : ¬(200 ≤ 403 ∧ 403 < 300))]
  rw [if_pos ⟨rfl, hdet⟩]
  refine ⟨rfl, ?_, ?_⟩
  · cases cookie_hint <;> decide
  · intro s b hc
    cases hc

def ddgBody : List Char := "<html>DDoS-Guard</html>".toList

/-- Environment whose kwik page GET answers 403 with a DDoS-Guard challenge
page. -/
def envDdg : KwikEnv :=
  ⟨.resp 200 (.ok ['P']),
   fun _ => .resp 403 (.ok ddgBody),
   fun _ => .reqErr,
   fun _ => none,
   fun b => if b = ['P'] then some ['K'] else none,
   fun _ => none⟩

/-- Claim C8 fails for the kwik fetch steps: a 403 response whose body
contains the challenge marker is surfaced by `fetch_kwik_dlink` as the
generic HTTP-status error (the `KwikError` type has no challenge variant at
all), not a distinct challenge error. -/
theorem ddos_guard_counterexample :
    detect_ddos_guard ddgBody = true
    ∧ fetch_kwik_dlink envDdg ['K'] 5 0 = .error (.httpStatus 403 ddgBody) := by
  decide

theorem ddos_guard_detection_witness :
    ensure_success_or_ddg 403 (.ok ddgBody) false
      = .error (.ddosGuard ddgHintNoCookie) :=
  ((ddos_guard_detection 403 ddgBody false rfl (by decide)).1)

/-- Claim C10: in `extract_kwik_link`, a kwik URL found directly in the page
text is used unchanged, while a kwik URL recovered by decoding a packed
payload has its (leftmost, non-overlapping) occurrences of `"/d/"` replaced by
`"/f/"` before resolution proceeds. -/
theorem kwik_link_normalization (env : KwikEnv) (body : List Char) :
    (∀ l, env.kwikDirect body = some l → kwikChoice env body = .ok (some l))
    ∧ (∀ encoded alphabet_key offsetStr baseStr offset base decoded v,
        env.kwikDirect body = none →
        env.locate body = some (encoded, alphabet_key, offsetStr, baseStr) →
        (parseI64 offsetStr).toOption = some offset →
        (parseUsize baseStr).toOption = some base →
        decode_js_style encoded alphabet_key offset base = .ok decoded →
        env.kwikDirect decoded = some v →
        kwikChoice env body = .ok (some (replaceDF v)))
    ∧ replaceDF "https://kwik.si/d/abc".toList = "https://kwik.si/f/abc".toList := by
  refine ⟨?_, ?_, by decide⟩
  · intro l hl
    unfold kwikChoice
    simp only [hl]
  · intro enc key offS baseS off base d v hnone hloc hoff hbase hdec hdir
    unfold kwikChoice
    simp only [hnone, hloc, hoff, hbase, hdec, hdir]
    rfl

/-- Environment with a direct kwik link in the page text. -/
def envDirect : KwikEnv :=
  ⟨.reqErr, fun _ => .reqErr, fun _ => .reqErr,
   fun _ => none,
   fun b => if b = ['P'] then some ['K'] else none,
   fun _ => none⟩

/-- Environment where the kwik link is only recoverable from the packed
payload and contains `"/d/"`. -/
def envDF : KwikEnv :=
  ⟨.reqErr, fun _ => .reqErr, fun _ => .reqErr,
   fun b => if b = ['B'] then some ([], ['k', 'y'], ['0'], ['1']) else none,
   fun b => if b = [] then some ['/', 'd', '/', 'x'] else none,
   fun _ => none⟩

theorem kwik_link_normalization_witness :
    kwikChoice envDirect ['P'] = .ok (some ['K'])
    ∧ kwikChoice envDF ['B'] = .ok (some ['/', 'f', '/', 'x']) :=
  ⟨(kwik_link_normalization envDirect ['P']).1 ['K'] (by decide),
   (kwik_link_normalization envDF ['B']).2.1 [] ['k', 'y'] ['0'] ['1'] 0 1 []
     ['/', 'd', '/', 'x'] (by decide) (by decide) (by decide) (by decide)
     (by decide) (by decide)⟩
